import Mathlib

/-!
Shallow embedding of the `nobs` incremental build orchestrator (`nobs.hpp`):
the metadata cache, the job-graph builder, the compile-command construction
and the parallel scheduler loop of `run_build`, together with theorems about
the specified properties.

Modeling conventions:
* filesystem paths are plain strings; `std::filesystem::canonical` is modeled
  as the identity on the abstract (already normalized, symlink-free) path
  strings, and `operator/` as joining with `"/"`;
* the filesystem is an oracle `String → Option (List Char)` giving each
  path's file content (`none` = the file does not exist), and file
  modification timestamps are an oracle `String → Nat` (the source casts
  them to `uint64_t`);
* machine integers (`uint64_t` timestamps) are `Nat` with explicit `2 ^ 64`
  bounds where the source's conversions matter;
* `exit(…)` and an uncaught C++ exception (which reaches `std::terminate`
  and aborts the process) are the two constructors of `Fatal`;
* console output (`std::println`, colors, progress percentages) and
  `usleep` are side effects with no bearing on the claims and are not
  modeled.
-/

namespace Nobs

/-- The whitespace set of `std::isspace` in the default locale:
space, `\t`, `\n`, `\v`, `\f`, `\r`.  Used by `std::istringstream`'s
`operator>>` token extraction and by `std::stoull`'s leading-space skip. -/
def isWsChar (c : Char) : Bool :=
  c == ' ' || c == '\t' || c == '\n' || c == '\x0b' || c == '\x0c' || c == '\r'

/-- Numeric value of a decimal digit character. -/
def digitVal (c : Char) : Nat := c.toNat - 48

/-- Value of a big-endian list of decimal digit characters. -/
def digitsVal (ds : List Char) : Nat := ds.foldl (fun a c => 10 * a + digitVal c) 0

/-- Model of `std::stoull(line.c_str())` (base 10): skip leading whitespace,
accept one optional `+`/`-` sign, then a nonempty run of decimal digits
(trailing junk is ignored because the source discards the position output).
`none` models a thrown exception: `std::invalid_argument` when no digits
were consumed, `std::out_of_range` when the digits exceed
`ULLONG_MAX = 2 ^ 64 - 1`.  A `-` sign negates in `unsigned long long`
arithmetic (wraps modulo `2 ^ 64`) without throwing. -/
def stoullChars (cs : List Char) : Option Nat :=
  let cs1 := cs.dropWhile isWsChar
  let isNeg : Bool := decide (cs1.head? = some '-')
  let cs2 := if cs1.head? = some '-' ∨ cs1.head? = some '+' then cs1.tail else cs1
  let ds := cs2.takeWhile Char.isDigit
  if ds.isEmpty then none
  else
    let v := digitsVal ds
    if 2 ^ 64 ≤ v then none
    else if isNeg then some ((2 ^ 64 - v) % 2 ^ 64) else some v

/-- The character for one decimal digit (`d < 10`). -/
def digitChar : Nat → Char
  | 0 => '0' | 1 => '1' | 2 => '2' | 3 => '3' | 4 => '4'
  | 5 => '5' | 6 => '6' | 7 => '7' | 8 => '8' | _ => '9'

/-- Little-endian decimal digits of `n`, with explicit fuel (any
`fuel > n` is enough). -/
def natDigitsRev (fuel n : Nat) : List Nat :=
  match fuel with
  | 0 => []
  | f + 1 => if n < 10 then [n] else (n % 10) :: natDigitsRev f (n / 10)

/-- Decimal rendering of a natural number, as `std::println("{}", …)`
formats a `uint64_t`. -/
def natToDecimalChars (n : Nat) : List Char :=
  ((natDigitsRev (n + 1) n).reverse).map digitChar

/-- Helper for `linesOf`: `acc` is the partial current line. -/
def linesAux : List Char → List Char → List (List Char)
  | [], acc => if acc.isEmpty then [] else [acc]
  | c :: rest, acc => if c = '\n' then acc :: linesAux rest [] else linesAux rest (acc ++ [c])

/-- The sequence of lines that successive `std::getline` calls read from a
file with the given content: a line per `'\n'`-terminated chunk, plus a
final unterminated chunk if the content does not end in `'\n'`;
`getline` fails at end of file (so a trailing `'\n'` does not produce an
extra empty line). -/
def linesOf (cs : List Char) : List (List Char) := linesAux cs []

/-- `CompileParameters` (`nobs.hpp`): the persisted fingerprint of one
compilation.  `source_timestamp` is a `uint64_t` in the source. -/
structure CompileParameters where
  source_file : String
  object_file : String
  compile_flags : String
  source_timestamp : Nat
deriving DecidableEq

/-- `operator==(CompileParameters, CompileParameters)`: field-wise
comparison of all four fields. -/
def cpEq (lhs rhs : CompileParameters) : Bool :=
  lhs.source_file == rhs.source_file &&
    lhs.object_file == rhs.object_file &&
    lhs.compile_flags == rhs.compile_flags &&
    lhs.source_timestamp == rhs.source_timestamp

/-- How the orchestrator process dies on a fatal error: an explicit
`exit(c)` call, or an uncaught C++ exception reaching `std::terminate`
(which aborts the process, not an `exit(1)`). -/
inductive Fatal where
  | exitCode (c : Nat)
  | abort
deriving DecidableEq

/-- `read_compile_parameters_from_file`, applied to the content of an
existing metadata file: four `std::getline` calls (each failure is
`trace_error` + `exit(1)`), then `std::stoull` on the fourth line (a
thrown exception is uncaught and aborts the process). -/
def read_compile_parameters_from_file (content : List Char) :
    Except Fatal CompileParameters :=
  match linesOf content with
  | l1 :: l2 :: l3 :: l4 :: _ =>
    match stoullChars l4 with
    | some t => .ok ⟨String.mk l1, String.mk l2, String.mk l3, t⟩
    | none => .error .abort
  | _ => .error (.exitCode 1)

/-- The content `save_meta_file` writes to `<object_file>.meta`: the four
fields of the record, one `std::println` line each. -/
def save_meta_file_content (p : CompileParameters) : List Char :=
  p.source_file.data ++ '\n' :: (p.object_file.data ++ '\n' ::
    (p.compile_flags.data ++ '\n' :: (natToDecimalChars p.source_timestamp ++ ['\n'])))

/-! ### Paths and the job-graph builder -/

/-- Split a character list on a separator (`"a/b" ↦ ["a","b"]`,
`"" ↦ [""]`, a trailing separator yields a trailing empty part) —
the splitting `std::filesystem::path` performs on `/`. -/
def splitCharAux (sep : Char) : List Char → List Char → List (List Char)
  | [], acc => [acc]
  | c :: rest, acc =>
    if c = sep then acc :: splitCharAux sep rest [] else splitCharAux sep rest (acc ++ [c])

/-- See `splitCharAux`. -/
def splitChar (sep : Char) (cs : List Char) : List (List Char) := splitCharAux sep cs []

/-- Join character lists with a separator. -/
def intercalateChar (sep : Char) : List (List Char) → List Char
  | [] => []
  | [x] => x
  | x :: rest => x ++ sep :: intercalateChar sep rest

/-- A POSIX path is absolute iff it has a root directory (starts with
`/`). -/
def isAbsolutePath (p : String) : Bool := p.data.head? == some '/'

/-- `std::filesystem::path::operator/` on the abstract path strings. -/
def joinPath (a b : String) : String := a ++ "/" ++ b

/-- `std::filesystem::path::filename`: the component after the last `/`. -/
def fileName (p : String) : String := String.mk ((splitChar '/' p.data).getLastD p.data)

/-- `std::filesystem::path::parent_path`: everything before the last `/`
(empty for a single-component path). -/
def parentPath (p : String) : String :=
  let parts := splitChar '/' p.data
  if parts.length ≤ 1 then "" else String.mk (intercalateChar '/' parts.dropLast)

/-- `std::filesystem::canonical` resolves symlinks and normalizes; it is
modeled as the identity on the abstract (already normalized, symlink-free)
path strings. -/
def canonicalModel (p : String) : String := p

/-- Lexical model of `std::filesystem::relative(p, base)`: strip the base
prefix.  The claims never depend on the concrete value, only on it being a
deterministic function of `p` and `base`. -/
def relativeModel (p base : String) : String :=
  let pre := base.data ++ ['/']
  if pre.isPrefixOf p.data then String.mk (p.data.drop pre.length) else p

/-- The `build_directory` / `project_directory` globals threaded through
the builder (`BuildContext` in the specification). -/
structure Ctx where
  build_directory : String
  project_directory : String
deriving DecidableEq

/-- `set_parallel_jobs`: clamps the requested parallel-job count to at
least 1. -/
def set_parallel_jobs (num_jobs : Nat) : Nat := if num_jobs > 0 then num_jobs else 1

/-- A `Target`: name, ordered source list, ordered compile-flag list.
(The `Executable`/`StaticLib` type tag plays no role in the claims.) -/
structure Target where
  name : String
  sources : List String
  compile_flags : List String
deriving DecidableEq

/-- `LinkParameters`: ordered object-file list, link target path, flags. -/
structure LinkParameters where
  object_files : List String
  target_file : String
  link_flags : String
deriving DecidableEq

/-- The builder-level view of `TargetBuildState`: the compile jobs
collected so far (each `CompileJob` starts with `Status::Pending`; the
scheduler model below tracks statuses separately), the link job's
parameters (default-initialized until `prepare_target_linking` fills
them in), and the `needs_linking` flag. -/
structure TargetBuildState where
  compile_jobs : List CompileParameters
  link_job : LinkParameters
  needs_linking : Bool
deriving DecidableEq

/-- A fresh `TargetBuildState{target}` as pushed by
`get_target_build_state`: empty job list, default link job, no linking. -/
def initialTBS : TargetBuildState := ⟨[], ⟨[], "", ""⟩, false⟩

/-- `relative_source_path` as computed in `prepare_file_compilation` and
`prepare_target_linking`: relative to the project directory when the
source path is absolute, otherwise the source path itself. -/
def relSourcePath (ctx : Ctx) (source : String) : String :=
  if isAbsolutePath source then relativeModel source ctx.project_directory else source

/-- `build_source_path` in `prepare_file_compilation`: the parent of the
source's mirror under the canonical build directory, or `"."` when the
build directory is not used. -/
def buildSourcePathOf (ctx : Ctx) (use_build_dir : Bool) (source : String) : String :=
  if use_build_dir then
    parentPath (joinPath (canonicalModel ctx.build_directory) (relSourcePath ctx source))
  else "."

/-- The object-file path `prepare_file_compilation` derives:
`canonical(build_source_path) / source.filename()` plus the `.o`
extension. -/
def objectFileOf (ctx : Ctx) (use_build_dir : Bool) (source : String) : String :=
  joinPath (canonicalModel (buildSourcePathOf ctx use_build_dir source)) (fileName source) ++ ".o"

/-- `get_file_metafile_name(object_file, build_source_path)`:
`canonical(build_source_path) / object_file.filename()` plus the `.meta`
extension. -/
def metafileName (ctx : Ctx) (use_build_dir : Bool) (source : String) : String :=
  joinPath (canonicalModel (buildSourcePathOf ctx use_build_dir source))
    (fileName (objectFileOf ctx use_build_dir source)) ++ ".meta"

/-- The fresh fingerprint (`new_compile_parameters`) built in
`prepare_file_compilation`: relative source path, derived object path,
the flattened flags string, and the source's current modification
timestamp (`ts` is the `get_file_timestamp` oracle; the source casts the
filesystem timestamp to `uint64_t`, so values are below `2 ^ 64`). -/
def fingerprintOf (ts : String → Nat) (ctx : Ctx) (flags : String)
    (use_build_dir : Bool) (source : String) : CompileParameters :=
  ⟨relSourcePath ctx source, objectFileOf ctx use_build_dir source, flags, ts source⟩

/-- Appending a compile job in `prepare_file_compilation`:
`compile_jobs.push_back(CompileJob{new_compile_parameters})` followed by
`needs_linking = true`. -/
def pushCompileJob (st : TargetBuildState) (p : CompileParameters) : TargetBuildState :=
  { st with compile_jobs := st.compile_jobs ++ [p], needs_linking := true }

/-- `prepare_file_compilation` for one source, acting on the target's
build state (the source locates that state through
`get_target_build_state`; the global, name-keyed indirection is modeled
separately below).  `fs` maps a path to the content of the file there
(`none` = no such file), matching the `std::filesystem::exists` guard:
absence of the metafile, or a stored record differing from the fresh
fingerprint, appends a compile job; an equal stored record leaves the
state untouched; a malformed existing record is fatal.  The
`create_directory_if_missing` calls only touch directories and cannot
affect these paths' contents. -/
def prepare_file_compilation (fs : String → Option (List Char)) (ts : String → Nat)
    (ctx : Ctx) (flags : String) (use_build_dir : Bool) (source : String)
    (st : TargetBuildState) : Except Fatal TargetBuildState :=
  let newp := fingerprintOf ts ctx flags use_build_dir source
  match fs (metafileName ctx use_build_dir source) with
  | some content =>
    match read_compile_parameters_from_file content with
    | .error e => .error e
    | .ok oldp => if cpEq oldp newp then .ok st else .ok (pushCompileJob st newp)
  | none => .ok (pushCompileJob st newp)

/-- The flag-flattening loop of `prepare_target_compilation`: join the
target's compile flags with single spaces, in declaration order. -/
def flattenFlags : List String → String
  | [] => ""
  | [f] => f
  | f :: rest => f ++ " " ++ flattenFlags rest

/-- `prepare_target_compilation` for a fresh build invocation: flatten
the flags, then run `prepare_file_compilation` over the sources in
declaration order, starting from the fresh state `get_target_build_state`
creates for a target not seen before in this invocation. -/
def prepare_target_compilation (fs : String → Option (List Char)) (ts : String → Nat)
    (ctx : Ctx) (target : Target) (use_build_dir : Bool) :
    Except Fatal TargetBuildState :=
  let flags := flattenFlags target.compile_flags
  target.sources.foldlM
    (fun st source => prepare_file_compilation fs ts ctx flags use_build_dir source st)
    initialTBS

/-- `canonical_build_dir` as used by `prepare_target_linking`: the
canonical build directory, or the canonical current directory when the
build directory is not used. -/
def linkDirOf (ctx : Ctx) (use_build_dir : Bool) : String :=
  if use_build_dir then canonicalModel ctx.build_directory else canonicalModel "."

/-- The per-source object path computed by `prepare_target_linking`'s
loop: `(canonical_build_dir / relative_source_path) + ".o"`. -/
def linkObjectFileOf (ctx : Ctx) (use_build_dir : Bool) (source : String) : String :=
  joinPath (linkDirOf ctx use_build_dir) (relSourcePath ctx source) ++ ".o"

/-- `prepare_target_linking`: a no-op when `needs_linking` is false;
otherwise overwrite the link job with the object file of every source of
the target (declaration order), the link target path
`canonical_build_dir / target.name`, and empty link flags. -/
def prepare_target_linking (ctx : Ctx) (target : Target) (use_build_dir : Bool)
    (st : TargetBuildState) : TargetBuildState :=
  if !st.needs_linking then st
  else
    { st with link_job :=
        ⟨target.sources.map (linkObjectFileOf ctx use_build_dir),
          joinPath (linkDirOf ctx use_build_dir) target.name, ""⟩ }

/-! ### Compile-command construction -/

/-- Helper for `splitWs`: `acc` is the reversed current token. -/
def splitWsAux : List Char → List Char → List (List Char)
  | [], acc => if acc.isEmpty then [] else [acc.reverse]
  | c :: rest, acc =>
    if isWsChar c then
      if acc.isEmpty then splitWsAux rest [] else acc.reverse :: splitWsAux rest []
    else splitWsAux rest (c :: acc)

/-- The `while (iss >> flag)` tokenization: split the flags string into
maximal whitespace-free runs, skipping whitespace. -/
def splitWs (s : String) : List String := (splitWsAux s.data []).map String.mk

/-- `build_command_for_compile_job`, mirroring the sequence of
`push_back` calls: the compiler, then the whole (unsplit) flags string,
then the whitespace-split flag tokens, then `"-c"`, `"-o"`, the object
file and the source file. -/
def build_command_for_compile_job (compiler : String) (params : CompileParameters) :
    List String :=
  let c := ([] : List String)
  let c := c.concat compiler
  let c := c.concat params.compile_flags
  let c := c ++ splitWs params.compile_flags
  let c := c.concat "-c"
  let c := c.concat "-o"
  let c := c.concat params.object_file
  c.concat params.source_file

/-! ### The scheduler loop of `run_build`

The loop mutates the target's compile-job statuses, the link-job status,
the `pending_processes` vector, `completed_jobs` and `link_job_added`.
External nondeterminism is an oracle: `done iter j` says whether the
`waitpid(…, WNOHANG)` poll of compile job `j`'s child succeeds in loop
iteration `iter`, `exitOf j` is that child's exit code, and `linkExit` is
the link child's exit code.  The model emits every intermediate state
(after each individual reap, spawn, and link-phase mutation) so that the
temporal claims quantify over every point of the execution.  Console
output and `usleep` are not modeled. -/

/-- `Job::Status`.  (`Failed` is declared in the source but never
assigned: a nonzero exit code terminates the whole program instead.) -/
inductive JStatus where
  | Pending | Running | Completed | Failed
deriving DecidableEq

/-- One entry of the `pending_processes` vector. -/
structure PendingProc where
  job_index : Nat
  is_compile : Bool
deriving DecidableEq

/-- The mutable state of one `run_build` execution. -/
structure RunState where
  compileStatuses : List JStatus
  linkStatus : JStatus
  pending : List PendingProc
  completed_jobs : Nat
  link_job_added : Bool
  /-- Indices of compile jobs whose `CompileRecord` was persisted via
  `save_meta_file`, in write order. -/
  saved : List Nat
  needs_linking : Bool
deriving DecidableEq

/-- `TargetBuildState::has_compilation_finished`: every compile job has
`Status::Completed`. -/
def hasCompilationFinished (s : RunState) : Bool :=
  s.compileStatuses.all (· == .Completed)

/-- The poll loop over `pending_processes` (`it = erase(it)` style):
`kept` are the entries already examined and kept, `rest` the entries
still to examine.  A reaped child with nonzero exit code is
`exit(exit_code)` (`.error`); a reaped compile job becomes `Completed`
and its record is saved.  A pending link entry never matches: its pid
was already reaped by the blocking `waitpid` in the spawn phase, so
`waitpid(…, WNOHANG)` returns `-1`, which is why the source's
link-completion branch (status `Completed`, "Linking completed
successfully") is unreachable. -/
def pollGo (done : Nat → Bool) (exitOf : Nat → Nat) :
    List PendingProc → List PendingProc → RunState →
    List RunState × Except Nat RunState
  | kept, [], s => ([], .ok { s with pending := kept })
  | kept, p :: rest, s =>
    if p.is_compile && done p.job_index then
      let ec := exitOf p.job_index
      if ec = 0 then
        let s1 :=
          if p.is_compile then
            { s with compileStatuses := s.compileStatuses.set p.job_index .Completed,
                     completed_jobs := s.completed_jobs + 1,
                     saved := s.saved ++ [p.job_index],
                     pending := kept ++ rest }
          else
            { s with linkStatus := .Completed,
                     completed_jobs := s.completed_jobs + 1,
                     pending := kept ++ rest }
        let next := pollGo done exitOf kept rest s1
        (s1 :: next.1, next.2)
      else ([], .error ec)
    else pollGo done exitOf (kept ++ [p]) rest s

/-- The spawn loop: while there is capacity (`pending.length < k`) and
unspawned compile jobs remain, start the compile job at index
`completed_jobs + pending.length`.  The source only acts when that job is
`Pending`; were it not, the C++ `while` body would make no progress and
spin forever, which (like fuel exhaustion) yields `none` here.  A call
with `fuel ≥ jobs_count + 1` never exhausts its fuel. -/
def spawnGo (k : Nat) : Nat → RunState → List RunState × Option RunState
  | 0, _ => ([], none)
  | fuel + 1, s =>
    if s.pending.length < k ∧
        s.completed_jobs + s.pending.length < s.compileStatuses.length then
      let index := s.completed_jobs + s.pending.length
      if s.compileStatuses[index]? = some .Pending then
        let s1 := { s with compileStatuses := s.compileStatuses.set index .Running,
                           pending := s.pending.concat ⟨index, true⟩ }
        let next := spawnGo k fuel s1
        (s1 :: next.1, next.2)
      else ([], none)
    else ([], some s)

/-- The link-spawn step: once `link_job_added` is still false, every
compile job is `Completed` and the target needs linking, mark the link
job `Running`, fork the linker — and then the parent immediately performs
a blocking `waitpid` on the link child, reaping it and discarding its
exit status (`_linkExit` is never examined) — and push the now-stale pid
onto `pending_processes`. -/
def linkPhase (_linkExit : Nat) (s : RunState) : List RunState × RunState :=
  if !s.link_job_added && hasCompilationFinished s && s.needs_linking then
    let s1 := { s with linkStatus := .Running, link_job_added := true }
    let s2 := { s1 with pending := s1.pending.concat ⟨0, false⟩ }
    ([s1, s2], s2)
  else ([], s)

/-- Outcome of one iteration of the scheduler loop. -/
inductive IterRes where
  | exited (c : Nat)
  | diverged
  | ok (s : RunState)
deriving DecidableEq

/-- One iteration of the `while (completed_jobs < jobs_count)` body:
poll, spawn compile jobs, maybe spawn the link job.  (The trailing
`usleep` changes no state.) -/
def iterStep (done : Nat → Bool) (exitOf : Nat → Nat) (k linkExit : Nat)
    (s : RunState) : List RunState × IterRes :=
  let poll := pollGo done exitOf [] s.pending s
  match poll.2 with
  | .error c => (poll.1, .exited c)
  | .ok s1 =>
    let spawn := spawnGo k (s1.compileStatuses.length + 1) s1
    match spawn.2 with
    | none => (poll.1 ++ spawn.1, .diverged)
    | some s2 =>
      let l := linkPhase linkExit s2
      (poll.1 ++ spawn.1 ++ l.1, .ok l.2)

/-- How a `run_build` execution ends: `exit(c)` on a job failure, the
(unreachable) spin of the spawn loop, a normal return (the orchestrator
then finishes with exit code 0), or fuel exhaustion of the model. -/
inductive RunRes where
  | exited (c : Nat)
  | diverged
  | finished (s : RunState)
  | fuelOut (s : RunState)
deriving DecidableEq

/-- The scheduler loop: iterate `iterStep` while
`completed_jobs < jobs_count`, collecting every intermediate state. -/
def runLoop (done : Nat → Nat → Bool) (exitOf : Nat → Nat) (k linkExit : Nat) :
    Nat → Nat → RunState → List RunState × RunRes
  | 0, _, s => ([], .fuelOut s)
  | fuel + 1, iter, s =>
    if s.completed_jobs < s.compileStatuses.length then
      let step := iterStep (done iter) exitOf k linkExit s
      match step.2 with
      | .exited c => (step.1, .exited c)
      | .diverged => (step.1, .diverged)
      | .ok s' =>
        let next := runLoop done exitOf k linkExit fuel (iter + 1) s'
        (step.1 ++ next.1, next.2)
    else ([], .finished s)

/-- The state at entry to `run_build` for a target whose builder phase
produced `n` compile jobs (each a `CompileJob` with `Status::Pending`)
and the given `needs_linking` flag. -/
def mkInit (n : Nat) (needs_linking : Bool) : RunState :=
  ⟨List.replicate n .Pending, .Pending, [], 0, false, [], needs_linking⟩

/-- `run_build`: report "nothing to build" and return when the compile
job count is zero, otherwise run the scheduler loop. -/
def run_build (done : Nat → Nat → Bool) (exitOf : Nat → Nat) (k linkExit fuel : Nat)
    (n : Nat) (needs_linking : Bool) : List RunState × RunRes :=
  let s0 := mkInit n needs_linking
  if n = 0 then ([], .finished s0)
  else runLoop done exitOf k linkExit fuel 0 s0

/-- Every state the scheduler passes through during one `run_build`
execution. -/
def schedulerTrace (done : Nat → Nat → Bool) (exitOf : Nat → Nat)
    (k linkExit fuel n : Nat) (needs_linking : Bool) : List RunState :=
  (run_build done exitOf k linkExit fuel n needs_linking).1

/-! ### Derived counts on scheduler states -/

/-- The number of compile jobs with `Status::Completed`. -/
def countCompleted (s : RunState) : Nat :=
  (s.compileStatuses.filter (· == .Completed)).length

/-- The number of compile jobs with `Status::Running`. -/
def countRunningCompile (s : RunState) : Nat :=
  (s.compileStatuses.filter (· == .Running)).length

/-- The number of jobs (compile and link) in the `Running` state. -/
def runningCount (s : RunState) : Nat :=
  countRunningCompile s + (if s.linkStatus = .Running then 1 else 0)

/-! ### The global, name-keyed `target_build_states` vector

Each C++ `TargetBuildState` holds a reference to its `Target`;
`get_target_build_state` scans the global vector comparing
`tbs.target.name == target.name` and appends a fresh state when no name
matches.  The model pairs each state with the name its lookup uses. -/

/-- One entry of the global `target_build_states` vector. -/
structure NamedTBS where
  target_name : String
  state : TargetBuildState
deriving DecidableEq

/-- The scan loop of `get_target_build_state`: index of the first entry
whose target name equals `name`. -/
def gtbsGo (name : String) : List NamedTBS → Nat → Option Nat
  | [], _ => none
  | e :: rest, i => if e.target_name = name then some i else gtbsGo name rest (i + 1)

/-- `get_target_build_state`: return the (possibly extended) vector and
the index of the state for `name` — the first entry with that name, or a
fresh `TargetBuildState{target}` appended at the end. -/
def get_target_build_state (states : List NamedTBS) (name : String) :
    List NamedTBS × Nat :=
  match gtbsGo name states 0 with
  | some i => (states, i)
  | none => (states ++ [⟨name, initialTBS⟩], states.length)

/-- Apply `f` to the state stored at index `i`. -/
def updateNamed (states : List NamedTBS) (i : Nat) (f : TargetBuildState → TargetBuildState) :
    List NamedTBS :=
  match states[i]? with
  | some e => states.set i ⟨e.target_name, f e.state⟩
  | none => states

/-- `prepare_file_compilation` at the global level: the push branch
locates the target's shared state through `get_target_build_state`
(keyed by `target.name` only) and mutates it in place; the up-to-date
branch returns before ever touching the global vector. -/
def prepare_file_compilation_g (fs : String → Option (List Char)) (ts : String → Nat)
    (ctx : Ctx) (flags : String) (use_build_dir : Bool) (source : String)
    (states : List NamedTBS) (target : Target) : Except Fatal (List NamedTBS) :=
  let newp := fingerprintOf ts ctx flags use_build_dir source
  let push := fun (sts : List NamedTBS) =>
    let found := get_target_build_state sts target.name
    updateNamed found.1 found.2 (fun st => pushCompileJob st newp)
  match fs (metafileName ctx use_build_dir source) with
  | some content =>
    match read_compile_parameters_from_file content with
    | .error e => .error e
    | .ok oldp => if cpEq oldp newp then .ok states else .ok (push states)
  | none => .ok (push states)

/-- `prepare_target_linking` at the global level: locate the target's
shared state through `get_target_build_state` and apply the link-job
preparation to it. -/
def prepare_target_linking_g (ctx : Ctx) (target : Target) (use_build_dir : Bool)
    (states : List NamedTBS) : List NamedTBS :=
  let found := get_target_build_state states target.name
  updateNamed found.1 found.2 (prepare_target_linking ctx target use_build_dir)

/-! ### Specification-side helpers -/

instance {ε α : Type} [DecidableEq ε] [DecidableEq α] : DecidableEq (Except ε α) :=
  fun a b =>
    match a, b with
    | .ok x, .ok y =>
      if h : x = y then .isTrue (by rw [h]) else .isFalse (by simp [h])
    | .error x, .error y =>
      if h : x = y then .isTrue (by rw [h]) else .isFalse (by simp [h])
    | .ok _, .error _ => .isFalse (by simp)
    | .error _, .ok _ => .isFalse (by simp)

/-- Value of a little-endian list of decimal digits. -/
def revVal (l : List Nat) : Nat := l.foldr (fun d a => a * 10 + d) 0

/-- The record currently stored for a source's object file: the parse of
the metafile's content, if the metafile exists and parses. -/
def storedOf (fs : String → Option (List Char)) (ctx : Ctx) (use_build_dir : Bool)
    (source : String) : Option CompileParameters :=
  (fs (metafileName ctx use_build_dir source)).bind
    fun c => (read_compile_parameters_from_file c).toOption

/-- The job indices of the compile entries of a `pending_processes`
list. -/
def pcsL (l : List PendingProc) : List Nat :=
  (l.filter (·.is_compile)).map (·.job_index)

/-- The number of link entries of a `pending_processes` list. -/
def linkEntriesL (l : List PendingProc) : Nat :=
  (l.filter (fun p => !p.is_compile)).length

/-- The invariant the scheduler loop maintains on every state it passes
through, for a capacity bound `k ≥ 1`. -/
structure Inv (k : Nat) (s : RunState) : Prop where
  /-- The compile entries of `pending_processes` carry distinct job
  indices. -/
  pcs_nodup : (pcsL s.pending).Nodup
  /-- Every compile entry of `pending_processes` belongs to a job in the
  `Running` state. -/
  pcs_running : ∀ j ∈ pcsL s.pending, s.compileStatuses[j]? = some .Running
  /-- Every compile entry's job index is in range. -/
  pcs_lt : ∀ j ∈ pcsL s.pending, j < s.compileStatuses.length
  /-- The number of `Running` compile jobs equals the number of compile
  entries of `pending_processes`. -/
  running_eq : countRunningCompile s = (pcsL s.pending).length
  /-- `pending_processes` never exceeds the capacity bound. -/
  pending_le : s.pending.length ≤ k
  /-- Before `link_job_added` is set, there is no link entry and the link
  job is still `Pending`. -/
  link_none : s.link_job_added = false → linkEntriesL s.pending = 0 ∧ s.linkStatus = .Pending
  /-- `Status::Failed` is never assigned to the link job. -/
  link_not_failed : s.linkStatus ≠ .Failed
  /-- Once the link job has started, every compile job is `Completed`. -/
  link_after : s.linkStatus = .Running ∨ s.linkStatus = .Completed →
    hasCompilationFinished s = true

/-! ## Theorems -/

/-- Appending a compile job changes the state (the job list grows). -/
theorem pushCompileJob_ne (st : TargetBuildState) (p : CompileParameters) :
    pushCompileJob st p ≠ st := by
  intro h
  have := congrArg (fun x => x.compile_jobs.length) h
  simp [pushCompileJob] at this

/-- The source's `operator==` on `CompileParameters` is structural
equality over the four fields. -/
theorem cpEq_iff (a b : CompileParameters) : cpEq a b = true ↔ a = b := by
  cases a; cases b
  simp [cpEq, CompileParameters.mk.injEq, and_assoc]

/-- Claim C1 (code bug): the failing scenario.  A target with one compile
job whose child exits 0 and whose link child exits 7: `run_build` returns
normally (the orchestrator then exits 0), never examining the link exit
code — `linkPhase` discards it — contrary to the claim that the
orchestrator exits 7.  For compile jobs the claim does hold, shown here
concretely: a compile child exiting 7 makes the scheduler call
`exit(7)`, and no `CompileRecord` is saved at any point of that run. -/
theorem nobs_c1_link_exit_ignored :
    (run_build (fun iter _ => decide (0 < iter)) (fun _ => 0) 1 7 3 1 true).2
      = .finished ⟨[.Completed], .Running, [⟨0, false⟩], 1, true, [0], true⟩
  ∧ (run_build (fun iter _ => decide (0 < iter)) (fun _ => 7) 1 0 3 1 true).2 = .exited 7
  ∧ ((run_build (fun iter _ => decide (0 < iter)) (fun _ => 7) 1 0 3 1 true).1.all
        fun t => t.saved.isEmpty) = true := by
  decide

/-- Claim C3 (code bug): a target with two compile jobs, every child
exiting 0, capacity 2.  `run_build` returns success, every compile job is
`Completed`, but the link job's status is `Running`, not `Completed`, at
return — and no state of the whole execution ever has the link job
`Completed` (the source's link-completion branch is unreachable because
the link child's pid was already reaped by the blocking `waitpid`). -/
theorem nobs_c3_link_never_completed :
    (run_build (fun iter _ => decide (0 < iter)) (fun _ => 0) 2 0 4 2 true).2
      = .finished ⟨[.Completed, .Completed], .Running, [⟨0, false⟩], 2, true, [0, 1], true⟩
  ∧ ((run_build (fun iter _ => decide (0 < iter)) (fun _ => 0) 2 0 4 2 true).1.all
        fun t => !(t.linkStatus == .Completed)) = true := by
  decide

/-- Claim C4, counterexample: for the compile job
`⟨"m.cpp", "m.o", "-O2 -g", 3⟩` the constructed argument vector is not
`[compiler, flags tokens…, "-c", "-o", object, source]` — an extra
argument appears. -/
theorem nobs_c4_counterexample :
    build_command_for_compile_job "g++" ⟨"m.cpp", "m.o", "-O2 -g", 3⟩ ≠
      "g++" :: (splitWs "-O2 -g" ++ ["-c", "-o", "m.o", "m.cpp"]) := by
  decide

/-- Claim C4 (corrected): for every compile job, the argument vector
handed to the spawned process is
`[compiler, flattened-flags-string, flags tokens…, "-c", "-o",
object_file, source_file]` — the whole unsplit flags string is passed as
an extra argument before its whitespace-split tokens. -/
theorem nobs_c4_amended (compiler : String) (p : CompileParameters) :
    build_command_for_compile_job compiler p =
      compiler :: p.compile_flags ::
        (splitWs p.compile_flags ++ ["-c", "-o", p.object_file, p.source_file]) := by
  simp [build_command_for_compile_job]

/-- Claim C5, counterexample: a metafile content with four readable lines
whose fourth line is not numeric makes `read_compile_parameters_from_file`
die through an uncaught `std::stoull` exception (process abort), which is
not a termination with exit code 1 as the claim states. -/
theorem nobs_c5_counterexample :
    read_compile_parameters_from_file "s\no\nf\nnotanumber\n".data = .error .abort ∧
    Fatal.abort ≠ Fatal.exitCode 1 := by
  decide

/-- Claim C5 (corrected): absence of the metafile is a normal
"never built" state that simply appends a compile job; a record with
fewer than 4 readable lines is fatal with exit code 1; a non-numeric
timestamp on the fourth line terminates the program abnormally through an
uncaught exception (abort), not with exit code 1. -/
theorem nobs_c5_amended :
    (∀ fs ts ctx flags ub source st,
        fs (metafileName ctx ub source) = none →
        prepare_file_compilation fs ts ctx flags ub source st =
          .ok (pushCompileJob st (fingerprintOf ts ctx flags ub source)))
  ∧ (∀ content, (linesOf content).length < 4 →
        read_compile_parameters_from_file content = .error (.exitCode 1))
  ∧ (∀ content l1 l2 l3 l4 rest,
        linesOf content = l1 :: l2 :: l3 :: l4 :: rest → stoullChars l4 = none →
        read_compile_parameters_from_file content = .error .abort) := by
  refine ⟨?_, ?_, ?_⟩
  · intro fs ts ctx flags ub source st h
    unfold prepare_file_compilation
    rw [h]
  · intro content h
    unfold read_compile_parameters_from_file
    rcases hl : linesOf content with _ | ⟨l1, _ | ⟨l2, _ | ⟨l3, _ | ⟨l4, rest⟩⟩⟩⟩
    · rfl
    · rfl
    · rfl
    · rfl
    · exfalso
      rw [hl] at h
      simp only [List.length_cons] at h
      omega
  · intro content l1 l2 l3 l4 rest hl hs
    simp [read_compile_parameters_from_file, hl, hs]

/-- Witness for the corrected claim C5 at concrete inputs. -/
theorem nobs_c5_witness :
    prepare_file_compilation (fun _ => none) (fun _ => 3) ⟨"bd", "pd"⟩ "-O2" true "m.cpp"
        initialTBS =
      .ok (pushCompileJob initialTBS (fingerprintOf (fun _ => 3) ⟨"bd", "pd"⟩ "-O2" true "m.cpp"))
  ∧ read_compile_parameters_from_file "a\nb\n".data = .error (.exitCode 1)
  ∧ read_compile_parameters_from_file "a\nb\nc\nxyz\n".data = .error .abort :=
  ⟨nobs_c5_amended.1 _ _ _ _ _ _ _ rfl,
   nobs_c5_amended.2.1 _ (by decide),
   nobs_c5_amended.2.2 _ "a".data "b".data "c".data "xyz".data [] (by decide) (by decide)⟩

/-- Claim C2 (confirmed): a compile job for a source is appended (with
`needs_linking` set) iff either no metafile exists for its object file or
the stored record is not structurally equal to the fresh fingerprint;
when the stored record equals the fingerprint, the state is left
untouched.  The hypothesis restricts to metafiles that parse (a malformed
one is fatal and appends nothing, see claim C5). -/
theorem nobs_c2 (fs : String → Option (List Char)) (ts : String → Nat) (ctx : Ctx)
    (flags : String) (ub : Bool) (source : String) (st : TargetBuildState)
    (hwf : ∀ c, fs (metafileName ctx ub source) = some c →
      ∃ r, read_compile_parameters_from_file c = .ok r) :
    (prepare_file_compilation fs ts ctx flags ub source st =
        .ok (pushCompileJob st (fingerprintOf ts ctx flags ub source))
      ↔ storedOf fs ctx ub source ≠ some (fingerprintOf ts ctx flags ub source))
  ∧ (storedOf fs ctx ub source = some (fingerprintOf ts ctx flags ub source) →
      prepare_file_compilation fs ts ctx flags ub source st = .ok st) := by
  cases hfs : fs (metafileName ctx ub source) with
  | none =>
    have hpf : prepare_file_compilation fs ts ctx flags ub source st =
        .ok (pushCompileJob st (fingerprintOf ts ctx flags ub source)) := by
      unfold prepare_file_compilation
      rw [hfs]
    refine ⟨⟨fun _ => ?_, fun _ => hpf⟩, fun hst => ?_⟩
    · simp [storedOf, hfs]
    · simp [storedOf, hfs] at hst
  | some c =>
    obtain ⟨r, hr⟩ := hwf c hfs
    have hst : storedOf fs ctx ub source = some r := by
      simp [storedOf, hfs, hr, Except.toOption]
    by_cases heq : r = fingerprintOf ts ctx flags ub source
    · subst heq
      have hpf : prepare_file_compilation fs ts ctx flags ub source st = .ok st := by
        unfold prepare_file_compilation
        rw [hfs]
        simp [hr, cpEq_iff]
      refine ⟨⟨fun hpush => ?_, fun hne => absurd hst hne⟩, fun _ => hpf⟩
      · rw [hpf] at hpush
        exact absurd (Except.ok.inj hpush).symm (pushCompileJob_ne st _)
    · have hpf : prepare_file_compilation fs ts ctx flags ub source st =
          .ok (pushCompileJob st (fingerprintOf ts ctx flags ub source)) := by
        unfold prepare_file_compilation
        rw [hfs]
        simp [hr, cpEq_iff, heq]
      refine ⟨⟨fun _ => ?_, fun _ => hpf⟩, fun h => ?_⟩
      · rw [hst]
        simp [heq]
      · rw [hst] at h
        exact absurd (Option.some.inj h) heq

/-- Witness for claim C2 at concrete inputs: no metafile exists, so the
compile job is appended. -/
theorem nobs_c2_witness :
    prepare_file_compilation (fun _ => none) (fun _ => 9) ⟨"bdir", "proj"⟩ "-Wall" true "x.cpp"
        initialTBS =
      .ok (pushCompileJob initialTBS
        (fingerprintOf (fun _ => 9) ⟨"bdir", "proj"⟩ "-Wall" true "x.cpp")) :=
  ((nobs_c2 (fun _ => none) (fun _ => 9) ⟨"bdir", "proj"⟩ "-Wall" true "x.cpp" initialTBS
      (fun _ h => nomatch h)).1).mpr (by decide)

/-! ### Decimal round trip: the timestamp written by `save_meta_file` is
read back by `std::stoull` unchanged. -/

theorem digitVal_digitChar {d : Nat} (h : d < 10) : digitVal (digitChar d) = d := by
  interval_cases d <;> rfl

theorem isDigit_digitChar {d : Nat} (h : d < 10) : (digitChar d).isDigit = true := by
  interval_cases d <;> rfl

theorem natDigitsRev_lt : ∀ fuel n, n < fuel → ∀ d ∈ natDigitsRev fuel n, d < 10 := by
  intro fuel
  induction fuel with
  | zero => intro n h; omega
  | succ f ih =>
    intro n h d hd
    unfold natDigitsRev at hd
    by_cases h10 : n < 10
    · simp [h10] at hd
      omega
    · simp [h10] at hd
      rcases hd with rfl | hd
      · exact Nat.mod_lt _ (by norm_num)
      · have hdiv : n / 10 < n := Nat.div_lt_self (by omega) (by norm_num)
        exact ih (n / 10) (by omega) d hd

theorem revVal_cons (x : Nat) (l : List Nat) : revVal (x :: l) = revVal l * 10 + x := rfl

theorem natDigitsRev_revVal : ∀ fuel n, n < fuel → revVal (natDigitsRev fuel n) = n := by
  intro fuel
  induction fuel with
  | zero => intro n h; omega
  | succ f ih =>
    intro n h
    unfold natDigitsRev
    by_cases h10 : n < 10
    · simp [h10, revVal]
    · have hdiv : n / 10 < n := Nat.div_lt_self (by omega) (by norm_num)
      simp only [h10, if_false, revVal_cons]
      rw [ih (n / 10) (by omega)]
      have := Nat.div_add_mod n 10
      omega

theorem natDigitsRev_ne_nil (n : Nat) : natDigitsRev (n + 1) n ≠ [] := by
  unfold natDigitsRev
  by_cases h : n < 10 <;> simp [h]

theorem digitsVal_append_single (xs : List Char) (c : Char) :
    digitsVal (xs ++ [c]) = 10 * digitsVal xs + digitVal c := by
  simp [digitsVal, List.foldl_append]

theorem digitsVal_reverse_map (l : List Nat) (h : ∀ d ∈ l, d < 10) :
    digitsVal ((l.reverse).map digitChar) = revVal l := by
  induction l with
  | nil => rfl
  | cons d t ih =>
    simp only [List.reverse_cons, List.map_append, List.map_cons, List.map_nil]
    rw [digitsVal_append_single, ih (fun x hx => h x (List.mem_cons_of_mem _ hx)),
      digitVal_digitChar (h d (List.mem_cons_self _ _)), revVal_cons]
    ring

theorem digitsVal_natToDecimalChars (n : Nat) : digitsVal (natToDecimalChars n) = n := by
  unfold natToDecimalChars
  rw [digitsVal_reverse_map _ (natDigitsRev_lt (n + 1) n (Nat.lt_succ_self n))]
  exact natDigitsRev_revVal (n + 1) n (Nat.lt_succ_self n)

theorem natToDecimalChars_ne_nil (n : Nat) : natToDecimalChars n ≠ [] := by
  unfold natToDecimalChars
  intro h
  simp only [List.map_eq_nil_iff, List.reverse_eq_nil_iff] at h
  exact natDigitsRev_ne_nil n h

theorem natToDecimalChars_isDigit (n : Nat) :
    ∀ c ∈ natToDecimalChars n, c.isDigit = true := by
  intro c hc
  unfold natToDecimalChars at hc
  simp only [List.mem_map, List.mem_reverse] at hc
  obtain ⟨d, hd, rfl⟩ := hc
  exact isDigit_digitChar (natDigitsRev_lt (n + 1) n (Nat.lt_succ_self n) d hd)

theorem isDigit_not_ws {c : Char} (h : c.isDigit = true) : isWsChar c = false := by
  rcases hw : isWsChar c
  · rfl
  · exfalso
    simp only [isWsChar, Bool.or_eq_true, beq_iff_eq] at hw
    rcases hw with ((((rfl | rfl) | rfl) | rfl) | rfl) | rfl <;> exact absurd h (by decide)

theorem isDigit_ne_dash {c : Char} (h : c.isDigit = true) : c ≠ '-' := by
  intro e
  subst e
  exact absurd h (by decide)

theorem isDigit_ne_plus {c : Char} (h : c.isDigit = true) : c ≠ '+' := by
  intro e
  subst e
  exact absurd h (by decide)

theorem takeWhile_all {p : Char → Bool} :
    ∀ l : List Char, (∀ c ∈ l, p c = true) → l.takeWhile p = l := by
  intro l
  induction l with
  | nil => intro _; rfl
  | cons x t ih =>
    intro h
    have hx := h x (List.mem_cons_self x t)
    simp [List.takeWhile_cons, hx, ih (fun c hc => h c (List.mem_cons_of_mem _ hc))]

theorem stoullChars_digits (l : List Char) (hne : l ≠ []) (hd : ∀ c ∈ l, c.isDigit = true)
    (hlt : digitsVal l < 2 ^ 64) : stoullChars l = some (digitsVal l) := by
  obtain ⟨c, t, rfl⟩ := List.exists_cons_of_ne_nil hne
  have hc := hd c (List.mem_cons_self c t)
  have hdrop : (c :: t).dropWhile isWsChar = c :: t := by
    simp [List.dropWhile_cons, isDigit_not_ws hc]
  have htake : (c :: t).takeWhile Char.isDigit = c :: t := takeWhile_all _ hd
  have hdash := isDigit_ne_dash hc
  have hplus := isDigit_ne_plus hc
  simp only [stoullChars, hdrop, List.head?_cons]
  have hcond : ¬((some c : Option Char) = some '-' ∨ (some c : Option Char) = some '+') := by
    simp [hdash, hplus]
  rw [if_neg hcond, htake]
  rw [if_neg (show ¬((c :: t).isEmpty = true) by simp)]
  rw [if_neg (Nat.not_le.mpr hlt)]
  rw [if_neg (show ¬(decide ((some c : Option Char) = some '-') = true) by simp [hdash])]

/-! ### Metafile round trip and second-run idempotence -/

theorem linesAux_append_line :
    ∀ (xs : List Char), '\n' ∉ xs → ∀ (rest : List Char) (acc : List Char),
      linesAux (xs ++ '\n' :: rest) acc = (acc ++ xs) :: linesAux rest [] := by
  intro xs
  induction xs with
  | nil => intro _ rest acc; simp [linesAux]
  | cons x t ih =>
    intro hnin rest acc
    have hx : ¬x = '\n' := fun e => hnin (by simp [e])
    simp only [List.cons_append, linesAux, if_neg hx, List.append_eq]
    rw [ih (fun hm => hnin (List.mem_cons_of_mem _ hm)) rest (acc ++ [x])]
    simp

theorem linesOf_save (p : CompileParameters)
    (h1 : '\n' ∉ p.source_file.data) (h2 : '\n' ∉ p.object_file.data)
    (h3 : '\n' ∉ p.compile_flags.data) :
    linesOf (save_meta_file_content p) =
      [p.source_file.data, p.object_file.data, p.compile_flags.data,
        natToDecimalChars p.source_timestamp] := by
  have h4 : '\n' ∉ natToDecimalChars p.source_timestamp := by
    intro hm
    exact absurd (natToDecimalChars_isDigit _ _ hm) (by decide)
  unfold save_meta_file_content linesOf
  rw [linesAux_append_line _ h1, linesAux_append_line _ h2, linesAux_append_line _ h3]
  have hsplit : natToDecimalChars p.source_timestamp ++ ['\n'] =
      natToDecimalChars p.source_timestamp ++ '\n' :: [] := rfl
  rw [hsplit, linesAux_append_line _ h4]
  simp [linesAux]

theorem stringMk_data (s : String) : String.mk s.data = s := rfl

theorem read_save_roundtrip (p : CompileParameters)
    (h1 : '\n' ∉ p.source_file.data) (h2 : '\n' ∉ p.object_file.data)
    (h3 : '\n' ∉ p.compile_flags.data) (h4 : p.source_timestamp < 2 ^ 64) :
    read_compile_parameters_from_file (save_meta_file_content p) = .ok p := by
  have hts : stoullChars (natToDecimalChars p.source_timestamp) =
      some p.source_timestamp := by
    rw [stoullChars_digits _ (natToDecimalChars_ne_nil _) (natToDecimalChars_isDigit _)
      (by rw [digitsVal_natToDecimalChars]; exact h4)]
    rw [digitsVal_natToDecimalChars]
  simp [read_compile_parameters_from_file, linesOf_save p h1 h2 h3, hts, stringMk_data]

theorem prepare_file_compilation_fresh (fs : String → Option (List Char)) (ts : String → Nat)
    (ctx : Ctx) (flags : String) (ub : Bool) (source : String) (st : TargetBuildState)
    (c : List Char) (hc : fs (metafileName ctx ub source) = some c)
    (hr : read_compile_parameters_from_file c = .ok (fingerprintOf ts ctx flags ub source)) :
    prepare_file_compilation fs ts ctx flags ub source st = .ok st := by
  unfold prepare_file_compilation
  rw [hc]
  simp [hr, cpEq_iff]

theorem foldlM_id {l : List String} {g : TargetBuildState → String → Except Fatal TargetBuildState}
    (hg : ∀ st src, src ∈ l → g st src = .ok st) : ∀ st, l.foldlM g st = .ok st := by
  induction l with
  | nil => intro st; rfl
  | cons x t ih =>
    intro st
    rw [List.foldlM_cons, hg st x (List.mem_cons_self x t)]
    exact ih (fun st' src hsrc => hg st' src (List.mem_cons_of_mem _ hsrc)) st

/-- Claim C6 (confirmed): the record written by `save_meta_file` is read
back equal to the freshly computed fingerprint (fields being single
lines, the timestamp being a `uint64_t`), and therefore a second run of
the build preparation with unchanged timestamps and flags — i.e. one in
which every source's metafile parses to exactly the fresh fingerprint, as
a fully successful build leaves it — produces zero compile jobs and
leaves `needs_linking` false. -/
theorem nobs_c6 :
    (∀ p : CompileParameters,
        '\n' ∉ p.source_file.data → '\n' ∉ p.object_file.data →
        '\n' ∉ p.compile_flags.data → p.source_timestamp < 2 ^ 64 →
        read_compile_parameters_from_file (save_meta_file_content p) = .ok p)
  ∧ (∀ fs ts ctx (target : Target) ub,
        (∀ src ∈ target.sources, ∃ c,
            fs (metafileName ctx ub src) = some c ∧
            read_compile_parameters_from_file c =
              .ok (fingerprintOf ts ctx (flattenFlags target.compile_flags) ub src)) →
        prepare_target_compilation fs ts ctx target ub = .ok initialTBS) := by
  constructor
  · exact fun p h1 h2 h3 h4 => read_save_roundtrip p h1 h2 h3 h4
  · intro fs ts ctx target ub h
    unfold prepare_target_compilation
    exact foldlM_id
      (fun st src hsrc => by
        obtain ⟨c, hc, hr⟩ := h src hsrc
        exact prepare_file_compilation_fresh fs ts ctx _ ub src st c hc hr)
      initialTBS

/-- Witness for claim C6 at concrete inputs: a one-source target whose
metafile holds exactly the saved fingerprint yields a no-op second run. -/
theorem nobs_c6_witness :
    read_compile_parameters_from_file (save_meta_file_content ⟨"m.cpp", "bd/m.cpp.o", "-O2", 5⟩) =
      .ok ⟨"m.cpp", "bd/m.cpp.o", "-O2", 5⟩
  ∧ prepare_target_compilation
      (fun q => if q = "bd/m.cpp.o.meta"
        then some (save_meta_file_content ⟨"m.cpp", "bd/m.cpp.o", "-O2", 5⟩) else none)
      (fun _ => 5) ⟨"bd", "proj"⟩ ⟨"app", ["m.cpp"], ["-O2"]⟩ true = .ok initialTBS :=
  ⟨nobs_c6.1 _ (by decide) (by decide) (by decide) (by decide),
   nobs_c6.2 _ _ _ _ _ (by
     intro src hsrc
     simp only [List.mem_singleton] at hsrc
     subst hsrc
     exact ⟨save_meta_file_content ⟨"m.cpp", "bd/m.cpp.o", "-O2", 5⟩, by decide, by decide⟩)⟩

/-! ### Link-job preparation -/

theorem prepare_file_compilation_nl_false {fs : String → Option (List Char)} {ts : String → Nat}
    {ctx : Ctx} {flags : String} {ub : Bool} {source : String} {st st' : TargetBuildState}
    (h : prepare_file_compilation fs ts ctx flags ub source st = .ok st')
    (hnl : st'.needs_linking = false) : st' = st := by
  unfold prepare_file_compilation at h
  cases hfs : fs (metafileName ctx ub source) with
  | none =>
    rw [hfs] at h
    have e := Except.ok.inj h
    rw [← e] at hnl
    simp [pushCompileJob] at hnl
  | some c =>
    simp only [hfs] at h
    cases hr : read_compile_parameters_from_file c with
    | error e => simp [hr] at h
    | ok r =>
      simp only [hr] at h
      by_cases heq : r = fingerprintOf ts ctx flags ub source
      · rw [if_pos ((cpEq_iff _ _).mpr heq)] at h
        exact (Except.ok.inj h).symm
      · have hb : ¬(cpEq r (fingerprintOf ts ctx flags ub source) = true) :=
          fun hb => heq ((cpEq_iff _ _).mp hb)
        rw [if_neg hb] at h
        have e := Except.ok.inj h
        rw [← e] at hnl
        simp [pushCompileJob] at hnl

theorem foldlM_nl_false {g : TargetBuildState → String → Except Fatal TargetBuildState} :
    ∀ (l : List String),
      (∀ st st' src, src ∈ l → g st src = .ok st' → st'.needs_linking = false → st' = st) →
      ∀ st st', l.foldlM g st = .ok st' → st'.needs_linking = false → st' = st := by
  intro l
  induction l with
  | nil =>
    intro _ st st' h _
    exact (Except.ok.inj h).symm
  | cons x t ih =>
    intro hg st st' h hnl
    rw [List.foldlM_cons] at h
    cases hgx : g st x with
    | error e => rw [hgx] at h; exact nomatch h
    | ok st1 =>
      rw [hgx] at h
      replace h : t.foldlM g st1 = .ok st' := h
      have e1 : st' = st1 :=
        ih (fun a b src hsrc => hg a b src (List.mem_cons_of_mem _ hsrc)) st1 st' h hnl
      have e2 : st1 = st :=
        hg st st1 x (List.mem_cons_self x t) hgx (by rw [← e1]; exact hnl)
      rw [e1, e2]

/-- Claim C7 (confirmed): when `needs_linking` is true, exactly one link
job is prepared whose object-file list is, index by index, the object
file of every source of the target in declaration order, whose target
file is `canonical_build_dir / name`, and whose link flags are empty,
leaving the compile jobs untouched; when `needs_linking` is false the
state is returned unchanged (no link job is prepared) — and a
`needs_linking = false` outcome of the builder implies zero compile
jobs, for which `run_build` returns at once, spawning nothing
("nothing to build"). -/
theorem nobs_c7 :
    (∀ ctx (target : Target) ub st, st.needs_linking = false →
        prepare_target_linking ctx target ub st = st)
  ∧ (∀ ctx (target : Target) ub st, st.needs_linking = true →
        (prepare_target_linking ctx target ub st).link_job.object_files.length =
            target.sources.length
        ∧ (∀ i : Nat, ((prepare_target_linking ctx target ub st).link_job.object_files)[i]? =
            (target.sources[i]?).map (linkObjectFileOf ctx ub))
        ∧ (prepare_target_linking ctx target ub st).link_job.target_file =
            joinPath (linkDirOf ctx ub) target.name
        ∧ (prepare_target_linking ctx target ub st).link_job.link_flags = ""
        ∧ (prepare_target_linking ctx target ub st).compile_jobs = st.compile_jobs)
  ∧ (∀ fs ts ctx (target : Target) ub st,
        prepare_target_compilation fs ts ctx target ub = .ok st →
        st.needs_linking = false → st.compile_jobs = [])
  ∧ (∀ done exitOf k linkExit fuel nl,
        run_build done exitOf k linkExit fuel 0 nl = ([], .finished (mkInit 0 nl))) := by
  refine ⟨?_, ?_, ?_, ?_⟩
  · intro ctx target ub st h
    simp [prepare_target_linking, h]
  · intro ctx target ub st h
    have he : prepare_target_linking ctx target ub st =
        { st with link_job := ⟨target.sources.map (linkObjectFileOf ctx ub),
            joinPath (linkDirOf ctx ub) target.name, ""⟩ } := by
      simp [prepare_target_linking, h]
    refine ⟨?_, fun i => ?_, ?_, ?_, ?_⟩ <;> simp [he, List.getElem?_map]
  · intro fs ts ctx target ub st h hnl
    unfold prepare_target_compilation at h
    have e : st = initialTBS :=
      foldlM_nl_false target.sources
        (fun a b src _ hp hn => prepare_file_compilation_nl_false hp hn)
        initialTBS st h hnl
    rw [e]
    rfl
  · intro done exitOf k linkExit fuel nl
    rfl

/-- Witness for claim C7 at concrete inputs. -/
theorem nobs_c7_witness :
    prepare_target_linking ⟨"bd", "proj"⟩ ⟨"app", ["m.cpp"], ["-O2"]⟩ true initialTBS = initialTBS
  ∧ (prepare_target_linking ⟨"bd", "proj"⟩ ⟨"app", ["m.cpp", "n.cpp"], []⟩ true
      ⟨[⟨"m.cpp", "bd/m.cpp.o", "", 1⟩], ⟨[], "", ""⟩, true⟩).link_job.object_files.length = 2
  ∧ (prepare_target_compilation
      (fun q => if q = "bd/m.cpp.o.meta"
        then some (save_meta_file_content ⟨"m.cpp", "bd/m.cpp.o", "-O2", 5⟩) else none)
      (fun _ => 5) ⟨"bd", "proj"⟩ ⟨"app2", ["m.cpp"], ["-O2"]⟩ true = .ok initialTBS →
      initialTBS.compile_jobs = [])
  ∧ run_build (fun _ _ => true) (fun _ => 0) 2 0 10 0 false =
      ([], .finished (mkInit 0 false)) :=
  ⟨nobs_c7.1 _ _ _ _ rfl,
   (nobs_c7.2.1 ⟨"bd", "proj"⟩ ⟨"app", ["m.cpp", "n.cpp"], []⟩ true
     ⟨[⟨"m.cpp", "bd/m.cpp.o", "", 1⟩], ⟨[], "", ""⟩, true⟩ rfl).1,
   fun h => nobs_c7.2.2.1 _ _ _ _ _ _ h rfl,
   nobs_c7.2.2.2 _ _ 2 0 10 false⟩

/-! ### Scheduler invariant: counting helpers -/

theorem pcsL_append (a b : List PendingProc) : pcsL (a ++ b) = pcsL a ++ pcsL b := by
  simp [pcsL]

theorem pcsL_cons_compile {p : PendingProc} (hp : p.is_compile = true) (l : List PendingProc) :
    pcsL (p :: l) = p.job_index :: pcsL l := by
  simp [pcsL, hp]

theorem pcsL_cons_link {p : PendingProc} (hp : p.is_compile = false) (l : List PendingProc) :
    pcsL (p :: l) = pcsL l := by
  simp [pcsL, hp]

theorem pcsL_length_le (l : List PendingProc) : (pcsL l).length ≤ l.length := by
  simp only [pcsL, List.length_map]
  exact List.length_filter_le _ _

theorem linkEntriesL_append (a b : List PendingProc) :
    linkEntriesL (a ++ b) = linkEntriesL a + linkEntriesL b := by
  simp [linkEntriesL]

theorem linkEntriesL_cons_compile {p : PendingProc} (hp : p.is_compile = true)
    (l : List PendingProc) : linkEntriesL (p :: l) = linkEntriesL l := by
  simp [linkEntriesL, hp]

/-- A pending list splits into its compile entries and its link
entries. -/
theorem pendingLen (l : List PendingProc) :
    l.length = (pcsL l).length + linkEntriesL l := by
  induction l with
  | nil => rfl
  | cons p t ih =>
    cases hp : p.is_compile <;>
      simp [pcsL, linkEntriesL, hp, List.length_cons] <;>
      simp [pcsL, linkEntriesL] at ih <;> omega

/-- Effect of a `set` on the length of a filter. -/
theorem filter_length_set {α : Type} {l : List α} {j : Nat} {a : α} (b : α)
    (h : l[j]? = some a) (p : α → Bool) :
    ((l.set j b).filter p).length + (if p a then 1 else 0) =
      (l.filter p).length + (if p b then 1 else 0) := by
  induction l generalizing j with
  | nil => simp at h
  | cons x t ih =>
    cases j with
    | zero =>
      have hx : x = a := by simpa using h
      subst hx
      simp only [List.set]
      cases hpa : p x <;> cases hpb : p b <;> simp [List.filter, hpa, hpb]
    | succ n =>
      have h' : t[n]? = some a := by simpa using h
      simp only [List.set]
      cases hpx : p x <;> simp [List.filter, hpx] <;>
        have := ih h' <;> omega

theorem finished_all_completed {s : RunState} (hf : hasCompilationFinished s = true) :
    ∀ (j : Nat) (st : JStatus), s.compileStatuses[j]? = some st → st = JStatus.Completed := by
  intro j st hj
  have hmem : st ∈ s.compileStatuses := List.getElem?_mem hj
  have h2 := List.all_eq_true.mp hf st hmem
  simpa using h2

theorem finished_no_running {s : RunState} (hf : hasCompilationFinished s = true) :
    countRunningCompile s = 0 := by
  unfold countRunningCompile
  rw [List.length_eq_zero, List.filter_eq_nil_iff]
  intro a ha hpa
  have : a = JStatus.Completed := by
    have := List.all_eq_true.mp hf a ha
    simpa using this
  subst this
  simp at hpa

/-- Under the invariant, a finished compile phase means no pending
compile entries. -/
theorem finished_pcs_nil {k : Nat} {s : RunState} (hinv : Inv k s)
    (hf : hasCompilationFinished s = true) : pcsL s.pending = [] := by
  rw [List.eq_nil_iff_forall_not_mem]
  intro j hj
  have hr := hinv.pcs_running j hj
  exact absurd (finished_all_completed hf j JStatus.Running hr) (by decide)

/-! ### Scheduler invariant: preservation by each micro-step -/

/-- Reaping one finished compile child (exit code 0) preserves the
invariant. -/
theorem inv_reap {k : Nat} {s : RunState} {kept rest : List PendingProc} {p : PendingProc}
    (hp : p.is_compile = true)
    (hinv : Inv k { s with pending := kept ++ p :: rest }) :
    Inv k { s with
      compileStatuses := s.compileStatuses.set p.job_index .Completed,
      completed_jobs := s.completed_jobs + 1,
      saved := s.saved ++ [p.job_index],
      pending := kept ++ rest } := by
  have hpcs_old : pcsL (kept ++ p :: rest) = pcsL kept ++ p.job_index :: pcsL rest := by
    rw [pcsL_append, pcsL_cons_compile hp]
  have hmem : p.job_index ∈ pcsL (kept ++ p :: rest) := by
    rw [hpcs_old]; simp
  have hrun : s.compileStatuses[p.job_index]? = some .Running := hinv.pcs_running _ hmem
  have hjlt : p.job_index < s.compileStatuses.length := hinv.pcs_lt _ hmem
  have hnodup := hinv.pcs_nodup
  rw [hpcs_old] at hnodup
  obtain ⟨hnk, hnjr, hdisj⟩ := List.nodup_append.mp hnodup
  have hj_not : p.job_index ∉ pcsL kept ++ pcsL rest := by
    intro hm
    rcases List.mem_append.mp hm with hk' | hr'
    · exact hdisj hk' (List.mem_cons_self _ _)
    · exact (List.nodup_cons.mp hnjr).1 hr'
  have hpcs_new : pcsL (kept ++ rest) = pcsL kept ++ pcsL rest := pcsL_append _ _
  refine ⟨?_, ?_, ?_, ?_, ?_, ?_, ?_, ?_⟩
  · -- pcs_nodup
    rw [hpcs_new]
    refine List.Nodup.sublist ?_ hnodup
    exact List.Sublist.append_left (List.sublist_cons_self _ _) _
  · -- pcs_running
    intro j' hj'
    rw [hpcs_new] at hj'
    have hj'_old : j' ∈ pcsL (kept ++ p :: rest) := by
      rw [hpcs_old]
      rcases List.mem_append.mp hj' with hk' | hr'
      · exact List.mem_append.mpr (Or.inl hk')
      · exact List.mem_append.mpr (Or.inr (List.mem_cons_of_mem _ hr'))
    have hne : j' ≠ p.job_index := fun e => hj_not (e ▸ hj')
    rw [List.getElem?_set_ne (Ne.symm hne)]
    exact hinv.pcs_running j' hj'_old
  · -- pcs_lt
    intro j' hj'
    rw [hpcs_new] at hj'
    have hj'_old : j' ∈ pcsL (kept ++ p :: rest) := by
      rw [hpcs_old]
      rcases List.mem_append.mp hj' with hk' | hr'
      · exact List.mem_append.mpr (Or.inl hk')
      · exact List.mem_append.mpr (Or.inr (List.mem_cons_of_mem _ hr'))
    simpa [List.length_set] using hinv.pcs_lt j' hj'_old
  · -- running_eq
    have hc := filter_length_set (l := s.compileStatuses) (j := p.job_index)
      JStatus.Completed hrun (· == JStatus.Running)
    have hc2 : ((s.compileStatuses.set p.job_index JStatus.Completed).filter
          (· == JStatus.Running)).length + 1 =
        (s.compileStatuses.filter (· == JStatus.Running)).length := by
      simpa using hc
    have hre := hinv.running_eq
    simp only [countRunningCompile] at hre ⊢
    rw [hpcs_old] at hre
    rw [hpcs_new]
    simp only [List.length_append, List.length_cons] at hre ⊢
    omega
  · -- pending_le
    have := hinv.pending_le
    simp only [List.length_append, List.length_cons] at this ⊢
    omega
  · -- link_none
    intro hadd
    obtain ⟨he, hst⟩ := hinv.link_none hadd
    constructor
    · rw [linkEntriesL_append] at he ⊢
      rw [show linkEntriesL (p :: rest) = linkEntriesL rest from
        linkEntriesL_cons_compile hp rest] at he
      exact he
    · exact hst
  · -- link_not_failed
    exact hinv.link_not_failed
  · -- link_after
    intro hl
    have hf := hinv.link_after hl
    exact absurd (finished_all_completed hf p.job_index JStatus.Running hrun) (by decide)

/-- Starting the pending compile job at the spawn index preserves the
invariant. -/
theorem inv_spawn {k : Nat} {s : RunState} (hinv : Inv k s)
    (hlen : s.pending.length < k)
    (hpend : s.compileStatuses[s.completed_jobs + s.pending.length]? = some .Pending) :
    Inv k { s with
      compileStatuses :=
        s.compileStatuses.set (s.completed_jobs + s.pending.length) .Running,
      pending := s.pending.concat ⟨s.completed_jobs + s.pending.length, true⟩ } := by
  have hjlt : s.completed_jobs + s.pending.length < s.compileStatuses.length :=
    (List.getElem?_eq_some.mp hpend).1
  have hnotin : s.completed_jobs + s.pending.length ∉ pcsL s.pending := by
    intro hm
    have hr := hinv.pcs_running _ hm
    rw [hpend] at hr
    exact absurd (Option.some.inj hr) (by decide)
  have hpcs_new : pcsL (s.pending.concat ⟨s.completed_jobs + s.pending.length, true⟩) =
      pcsL s.pending ++ [s.completed_jobs + s.pending.length] := by
    rw [List.concat_eq_append, pcsL_append, pcsL_cons_compile rfl]
    rfl
  refine ⟨?_, ?_, ?_, ?_, ?_, ?_, ?_, ?_⟩
  · -- pcs_nodup
    rw [hpcs_new, List.nodup_append]
    exact ⟨hinv.pcs_nodup, List.nodup_singleton _,
      fun a ha hb => hnotin (by simpa using (List.mem_singleton.mp hb ▸ ha))⟩
  · -- pcs_running
    intro j' hj'
    rw [hpcs_new] at hj'
    rcases List.mem_append.mp hj' with hold | hnew
    · have hne : j' ≠ s.completed_jobs + s.pending.length := fun e => hnotin (e ▸ hold)
      rw [List.getElem?_set_ne (Ne.symm hne)]
      exact hinv.pcs_running j' hold
    · rw [List.mem_singleton.mp hnew]
      exact List.getElem?_set_self hjlt
  · -- pcs_lt
    intro j' hj'
    rw [hpcs_new] at hj'
    rw [List.length_set]
    rcases List.mem_append.mp hj' with hold | hnew
    · exact hinv.pcs_lt j' hold
    · rw [List.mem_singleton.mp hnew]
      exact hjlt
  · -- running_eq
    have hc := filter_length_set (l := s.compileStatuses)
      (j := s.completed_jobs + s.pending.length) JStatus.Running hpend (· == JStatus.Running)
    have hc2 : ((s.compileStatuses.set (s.completed_jobs + s.pending.length)
            JStatus.Running).filter (· == JStatus.Running)).length =
        (s.compileStatuses.filter (· == JStatus.Running)).length + 1 := by
      simpa using hc
    have hre := hinv.running_eq
    simp only [countRunningCompile] at hre ⊢
    rw [hpcs_new]
    simp only [List.length_append, List.length_singleton]
    omega
  · -- pending_le
    simp only [List.concat_eq_append, List.length_append, List.length_singleton]
    omega
  · -- link_none
    intro hadd
    obtain ⟨he, hst⟩ := hinv.link_none hadd
    refine ⟨?_, hst⟩
    rw [List.concat_eq_append, linkEntriesL_append, he]
    rfl
  · -- link_not_failed
    exact hinv.link_not_failed
  · -- link_after
    intro hl
    have hf := hinv.link_after hl
    exact absurd (finished_all_completed hf _ JStatus.Pending hpend) (by decide)

/-- The link-spawn phase preserves the invariant at both of its
intermediate states (given capacity at least 1). -/
theorem linkPhase_inv {k : Nat} (hk : 1 ≤ k) (lex : Nat) {s : RunState} (hinv : Inv k s) :
    (∀ t ∈ (linkPhase lex s).1, Inv k t) ∧ Inv k (linkPhase lex s).2 := by
  unfold linkPhase
  by_cases hguard : (!s.link_job_added && hasCompilationFinished s && s.needs_linking) = true
  · have hparts := hguard
    simp only [Bool.and_eq_true, Bool.not_eq_true'] at hparts
    obtain ⟨⟨hadd, hf⟩, hnl⟩ := hparts
    have hpcs : pcsL s.pending = [] := finished_pcs_nil hinv hf
    have hle : linkEntriesL s.pending = 0 := (hinv.link_none hadd).1
    have hpend_nil : s.pending = [] := by
      have hlen := pendingLen s.pending
      rw [hpcs, hle] at hlen
      exact List.length_eq_zero.mp (by simpa using hlen)
    have hinv1 : Inv k { s with linkStatus := .Running, link_job_added := true } := by
      refine ⟨hinv.pcs_nodup, hinv.pcs_running, hinv.pcs_lt, hinv.running_eq,
        hinv.pending_le, ?_, (fun h => nomatch h), (fun _ => hf)⟩
      intro h
      exact nomatch h
    have hinv2 : Inv k
        { s with
          linkStatus := JStatus.Running
          link_job_added := true
          pending := s.pending.concat ⟨0, false⟩ } := by
      refine ⟨?_, ?_, ?_, ?_, ?_, ?_, (fun h => nomatch h), (fun _ => hf)⟩
      · rw [List.concat_eq_append, pcsL_append, hpcs, pcsL_cons_link rfl]
        exact List.nodup_nil
      · intro j hj
        rw [List.concat_eq_append, pcsL_append, hpcs, pcsL_cons_link rfl] at hj
        exact nomatch hj
      · intro j hj
        rw [List.concat_eq_append, pcsL_append, hpcs, pcsL_cons_link rfl] at hj
        exact nomatch hj
      · have hre := hinv.running_eq
        rw [hpcs] at hre
        show countRunningCompile s = (pcsL (s.pending.concat ⟨0, false⟩)).length
        rw [List.concat_eq_append, pcsL_append, hpcs, pcsL_cons_link rfl]
        exact hre
      · rw [hpend_nil]
        simpa using hk
      · intro h
        exact nomatch h
    rw [if_pos hguard]
    refine ⟨?_, ?_⟩
    · intro t ht
      simp only [List.mem_cons, List.not_mem_nil, or_false] at ht
      rcases ht with rfl | rfl
      · exact hinv1
      · exact hinv2
    · exact hinv2
  · rw [if_neg hguard]
    exact ⟨(fun t ht => nomatch ht), hinv⟩

/-- The poll loop preserves the invariant at every emitted state and in
its result. -/
theorem pollGo_inv (done : Nat → Bool) (exitOf : Nat → Nat) (k : Nat) :
    ∀ (rest kept : List PendingProc) (s : RunState),
      Inv k { s with pending := kept ++ rest } →
      (∀ t ∈ (pollGo done exitOf kept rest s).1, Inv k t) ∧
      (∀ s', (pollGo done exitOf kept rest s).2 = .ok s' → Inv k s') := by
  intro rest
  induction rest with
  | nil =>
    intro kept s hinv
    refine ⟨?_, ?_⟩
    · intro t ht
      simp [pollGo] at ht
    · intro s' hs'
      simp only [pollGo] at hs'
      have e := Except.ok.inj hs'
      rw [← e]
      simpa using hinv
  | cons p rest ih =>
    intro kept s hinv
    by_cases hmatch : (p.is_compile && done p.job_index) = true
    · have hmatch' := hmatch
      simp only [Bool.and_eq_true] at hmatch'
      have hp : p.is_compile = true := hmatch'.1
      by_cases hec : exitOf p.job_index = 0
      · -- reap branch
        have hinv1 := inv_reap hp hinv
        simp only [pollGo]
        rw [if_pos hmatch, if_pos hec, if_pos hp]
        obtain ⟨ht, hr⟩ := ih kept
          { s with
            compileStatuses := s.compileStatuses.set p.job_index .Completed,
            completed_jobs := s.completed_jobs + 1,
            saved := s.saved ++ [p.job_index],
            pending := kept ++ rest }
          hinv1
        refine ⟨?_, ?_⟩
        · intro t htm
          rcases List.mem_cons.mp htm with rfl | htm
          · exact hinv1
          · exact ht t htm
        · exact hr
      · -- failure branch: the loop exits the whole program
        simp only [pollGo]
        rw [if_pos hmatch, if_neg hec]
        exact ⟨(fun t ht => nomatch ht), (fun s' hs' => nomatch hs')⟩
    · -- skip branch
      have halign : Inv k { s with pending := (kept ++ [p]) ++ rest } := by
        rw [List.append_assoc]
        simpa using hinv
      simp only [pollGo]
      rw [if_neg hmatch]
      exact ih (kept ++ [p]) s halign

/-- The compile-spawn loop preserves the invariant at every emitted
state and in its result. -/
theorem spawnGo_inv (k : Nat) :
    ∀ (fuel : Nat) (s : RunState), Inv k s →
      (∀ t ∈ (spawnGo k fuel s).1, Inv k t) ∧
      (∀ s', (spawnGo k fuel s).2 = some s' → Inv k s') := by
  intro fuel
  induction fuel with
  | zero =>
    intro s hinv
    exact ⟨(fun t ht => nomatch ht), (fun s' hs' => nomatch hs')⟩
  | succ f ih =>
    intro s hinv
    by_cases hcond : s.pending.length < k ∧
        s.completed_jobs + s.pending.length < s.compileStatuses.length
    · by_cases hpend :
          s.compileStatuses[s.completed_jobs + s.pending.length]? = some .Pending
      · have hinv1 := inv_spawn hinv hcond.1 hpend
        simp only [spawnGo]
        rw [if_pos hcond, if_pos hpend]
        obtain ⟨ht, hr⟩ := ih
          { s with
            compileStatuses :=
              s.compileStatuses.set (s.completed_jobs + s.pending.length) .Running,
            pending := s.pending.concat ⟨s.completed_jobs + s.pending.length, true⟩ }
          hinv1
        refine ⟨?_, ?_⟩
        · intro t htm
          rcases List.mem_cons.mp htm with rfl | htm
          · exact hinv1
          · exact ht t htm
        · exact hr
      · simp only [spawnGo]
        rw [if_pos hcond, if_neg hpend]
        exact ⟨(fun t ht => nomatch ht), (fun s' hs' => nomatch hs')⟩
    · simp only [spawnGo]
      rw [if_neg hcond]
      refine ⟨(fun t ht => nomatch ht), ?_⟩
      intro s' hs'
      have e := Option.some.inj hs'
      rw [← e]
      exact hinv

/-- One whole iteration of the scheduler loop preserves the invariant. -/
theorem iterStep_inv {k : Nat} (hk : 1 ≤ k) (done : Nat → Bool) (exitOf : Nat → Nat)
    (lex : Nat) {s : RunState} (hinv : Inv k s) :
    (∀ t ∈ (iterStep done exitOf k lex s).1, Inv k t) ∧
    (∀ s', (iterStep done exitOf k lex s).2 = .ok s' → Inv k s') := by
  have hinit : Inv k { s with pending := [] ++ s.pending } := by simpa using hinv
  obtain ⟨hp1, hp2⟩ := pollGo_inv done exitOf k s.pending [] s hinit
  simp only [iterStep]
  cases hr1 : (pollGo done exitOf [] s.pending s).2 with
  | error c =>
    exact ⟨hp1, (fun s' hs' => nomatch hs')⟩
  | ok s1 =>
    simp only []
    have hinv1 : Inv k s1 := hp2 s1 hr1
    obtain ⟨hs1t, hs1r⟩ := spawnGo_inv k (s1.compileStatuses.length + 1) s1 hinv1
    cases hr2 : (spawnGo k (s1.compileStatuses.length + 1) s1).2 with
    | none =>
      refine ⟨?_, (fun s' hs' => nomatch hs')⟩
      intro t htm
      rcases List.mem_append.mp htm with h | h
      · exact hp1 t h
      · exact hs1t t h
    | some s2 =>
      have hinv2 : Inv k s2 := hs1r s2 hr2
      obtain ⟨hl1, hl2⟩ := linkPhase_inv hk lex hinv2
      refine ⟨?_, ?_⟩
      · intro t htm
        rcases List.mem_append.mp htm with h | h
        · rcases List.mem_append.mp h with h' | h'
          · exact hp1 t h'
          · exact hs1t t h'
        · exact hl1 t h
      · intro s' hs'
        have e := IterRes.ok.inj hs'
        rw [← e]
        exact hl2

/-- The scheduler loop maintains the invariant along its whole trace and
into its final state. -/
theorem runLoop_inv (done : Nat → Nat → Bool) (exitOf : Nat → Nat) (k lex : Nat)
    (hk : 1 ≤ k) :
    ∀ (fuel iter : Nat) (s : RunState), Inv k s →
      (∀ t ∈ (runLoop done exitOf k lex fuel iter s).1, Inv k t) ∧
      (∀ s', (runLoop done exitOf k lex fuel iter s).2 = .finished s' → Inv k s') := by
  intro fuel
  induction fuel with
  | zero =>
    intro iter s hinv
    exact ⟨(fun t ht => nomatch ht), (fun s' hs' => nomatch hs')⟩
  | succ f ih =>
    intro iter s hinv
    by_cases hc : s.completed_jobs < s.compileStatuses.length
    · obtain ⟨hit, hir⟩ := iterStep_inv hk (done iter) exitOf lex hinv
      simp only [runLoop]
      rw [if_pos hc]
      cases hres : (iterStep (done iter) exitOf k lex s).2 with
      | exited c =>
        exact ⟨hit, (fun s' hs' => nomatch hs')⟩
      | diverged =>
        exact ⟨hit, (fun s' hs' => nomatch hs')⟩
      | ok s1 =>
        have hinv1 : Inv k s1 := hir s1 hres
        obtain ⟨ht, hr⟩ := ih (iter + 1) s1 hinv1
        refine ⟨?_, hr⟩
        intro t htm
        rcases List.mem_append.mp htm with h | h
        · exact hit t h
        · exact ht t h
    · simp only [runLoop]
      rw [if_neg hc]
      refine ⟨(fun t ht => nomatch ht), ?_⟩
      intro s' hs'
      have e := RunRes.finished.inj hs'
      rw [← e]
      exact hinv

/-- The state at entry to the scheduler satisfies the invariant. -/
theorem mkInit_inv (k n : Nat) (nl : Bool) : Inv k (mkInit n nl) := by
  refine ⟨?_, ?_, ?_, ?_, ?_, ?_, ?_, ?_⟩
  · exact List.nodup_nil
  · intro j hj; exact nomatch hj
  · intro j hj; exact nomatch hj
  · show (List.filter _ (List.replicate n JStatus.Pending)).length = 0
    rw [List.length_eq_zero, List.filter_eq_nil_iff]
    intro a ha
    rw [List.eq_of_mem_replicate ha]
    decide
  · exact Nat.zero_le k
  · exact fun _ => ⟨rfl, rfl⟩
  · exact fun h => nomatch h
  · intro h
    rcases h with h | h <;> exact nomatch h

/-- Claim C8 (confirmed): in every execution of the scheduler, for every
capacity bound, at every point of the trace at which the link job has
left `Pending` (i.e. has started), every compile job of the target has
`Status::Completed` — the link job never starts before the whole compile
phase is finished. -/
theorem nobs_c8 (done : Nat → Nat → Bool) (exitOf : Nat → Nat) (k linkExit fuel n : Nat)
    (nl : Bool) (t : RunState) (hk : 1 ≤ k)
    (ht : t ∈ schedulerTrace done exitOf k linkExit fuel n nl)
    (hs : t.linkStatus ≠ .Pending) : hasCompilationFinished t = true := by
  by_cases hn : n = 0
  · simp [schedulerTrace, run_build, hn] at ht
  · simp only [schedulerTrace, run_build, if_neg hn] at ht
    have hinv :=
      (runLoop_inv done exitOf k linkExit hk fuel 0 (mkInit n nl) (mkInit_inv k n nl)).1 t ht
    cases hlk : t.linkStatus with
    | Pending => exact absurd hlk hs
    | Failed => exact absurd hlk hinv.link_not_failed
    | Running => exact hinv.link_after (Or.inl hlk)
    | Completed => exact hinv.link_after (Or.inr hlk)

/-- Witness for claim C8: a concrete one-job run whose trace contains a
state with the link job `Running`; there every compile job is
`Completed`. -/
theorem nobs_c8_witness :
    hasCompilationFinished ⟨[.Completed], .Running, [], 1, true, [0], true⟩ = true :=
  nobs_c8 (fun iter _ => decide (0 < iter)) (fun _ => 0) 1 7 3 1 true
    ⟨[.Completed], .Running, [], 1, true, [0], true⟩ (by decide) (by decide) (by decide)

/-- Claim C9 (confirmed): `set_parallel_jobs` clamps the bound to at
least 1, and for every build with capacity `k ≥ 1`, at no point of the
scheduler's execution are more than `k` jobs simultaneously in the
`Running` state, counting both compile jobs and the link job. -/
theorem nobs_c9 :
    (∀ m : Nat, 1 ≤ set_parallel_jobs m)
  ∧ (∀ (done : Nat → Nat → Bool) (exitOf : Nat → Nat) (k linkExit fuel n : Nat) (nl : Bool)
        (t : RunState), 1 ≤ k →
        t ∈ schedulerTrace done exitOf k linkExit fuel n nl → runningCount t ≤ k) := by
  constructor
  · intro m
    unfold set_parallel_jobs
    split <;> omega
  · intro done exitOf k linkExit fuel n nl t hk ht
    by_cases hn : n = 0
    · simp [schedulerTrace, run_build, hn] at ht
    · simp only [schedulerTrace, run_build, if_neg hn] at ht
      have hinv :=
        (runLoop_inv done exitOf k linkExit hk fuel 0 (mkInit n nl) (mkInit_inv k n nl)).1 t ht
      by_cases hlr : t.linkStatus = .Running
      · have hf := hinv.link_after (Or.inl hlr)
        have h0 := finished_no_running hf
        unfold runningCount
        rw [h0, if_pos hlr]
        omega
      · unfold runningCount
        rw [if_neg hlr]
        have h1 := hinv.running_eq
        have h2 := pcsL_length_le t.pending
        have h3 := hinv.pending_le
        omega

/-- Witness for claim C9: the clamp at 0, and a concrete state of a
3-job, capacity-2 run with both capacity slots in use. -/
theorem nobs_c9_witness :
    1 ≤ set_parallel_jobs 0 ∧
    runningCount ⟨[.Running, .Running, .Pending], .Pending, [⟨0, true⟩, ⟨1, true⟩],
      0, false, [], true⟩ ≤ 2 :=
  ⟨nobs_c9.1 0,
   nobs_c9.2 (fun iter _ => decide (1 < iter)) (fun _ => 0) 2 0 10 3 true
     ⟨[.Running, .Running, .Pending], .Pending, [⟨0, true⟩, ⟨1, true⟩], 0, false, [], true⟩
     (by decide) (by decide)⟩

/-! ### Global name-keyed build state -/

theorem gtbsGo_succ (name : String) : ∀ (l : List NamedTBS) (i : Nat),
    gtbsGo name l (i + 1) = (gtbsGo name l i).map (· + 1) := by
  intro l
  induction l with
  | nil => intro i; rfl
  | cons e rest ih =>
    intro i
    by_cases he : e.target_name = name
    · simp [gtbsGo, he]
    · simp only [gtbsGo, if_neg he]
      exact ih (i + 1)

theorem gtbsGo_none (name : String) : ∀ (l : List NamedTBS) (i : Nat),
    gtbsGo name l i = none → ∀ e ∈ l, e.target_name ≠ name := by
  intro l
  induction l with
  | nil => intro i _ e he; exact nomatch he
  | cons x rest ih =>
    intro i h e he
    by_cases hx : x.target_name = name
    · simp [gtbsGo, hx] at h
    · rcases List.mem_cons.mp he with rfl | hm
      · exact hx
      · exact ih (i + 1) (by simpa [gtbsGo, hx] using h) e hm

theorem gtbsGo_zero_spec (name : String) : ∀ (l : List NamedTBS) (j : Nat),
    gtbsGo name l 0 = some j →
      j < l.length ∧ (∃ e, l[j]? = some e ∧ e.target_name = name) ∧
        (∀ m, m < j → ∀ x, l[m]? = some x → x.target_name ≠ name) := by
  intro l
  induction l with
  | nil => intro j h; exact nomatch h
  | cons x rest ih =>
    intro j h
    by_cases hx : x.target_name = name
    · have hj : j = 0 := by
        have h' := h
        simp [gtbsGo, hx] at h'
        omega
      subst hj
      exact ⟨by simp, ⟨x, by simp, hx⟩, fun m hm => by omega⟩
    · have h' : gtbsGo name rest 1 = some j := by simpa [gtbsGo, hx] using h
      rw [show (1 : Nat) = 0 + 1 from rfl, gtbsGo_succ name rest 0] at h'
      cases hr : gtbsGo name rest 0 with
      | none => rw [hr] at h'; exact nomatch h'
      | some j0 =>
        rw [hr] at h'
        have hj : j = j0 + 1 := (Option.some.inj h').symm
        subst hj
        obtain ⟨hlt, ⟨e, he, hen⟩, hfirst⟩ := ih j0 hr
        refine ⟨by simp; omega, ⟨e, by simpa using he, hen⟩, ?_⟩
        intro m hm y hy
        cases m with
        | zero =>
          have hxy : y = x := by simpa using hy.symm
          rw [hxy]
          exact hx
        | succ m' =>
          have hy' : rest[m']? = some y := by simpa using hy
          exact hfirst m' (by omega) y hy'

theorem find?_first {l : List NamedTBS} {i : Nat} {e : NamedTBS} (nm : String)
    (he : l[i]? = some e) (hn : e.target_name = nm)
    (hfirst : ∀ m, m < i → ∀ x, l[m]? = some x → x.target_name ≠ nm) :
    l.find? (fun x => x.target_name == nm) = some e := by
  induction l generalizing i with
  | nil => exact nomatch he
  | cons x rest ih =>
    cases i with
    | zero =>
      have hxe : x = e := by simpa using he
      subst hxe
      rw [List.find?_cons]
      simp [hn]
    | succ i' =>
      have hx : x.target_name ≠ nm := hfirst 0 (Nat.succ_pos i') x (by simp)
      rw [List.find?_cons]
      have hpx : (x.target_name == nm) = false := by simp [hx]
      rw [hpx]
      exact ih (i := i') (by simpa using he) (fun m hm y hy =>
        hfirst (m + 1) (by omega) y (by simpa using hy))

theorem updateNamed_getElem_self {l : List NamedTBS} {i : Nat} {e : NamedTBS}
    (f : TargetBuildState → TargetBuildState) (he : l[i]? = some e) :
    (updateNamed l i f)[i]? = some ⟨e.target_name, f e.state⟩ := by
  unfold updateNamed
  rw [he]
  exact List.getElem?_set_self (List.getElem?_eq_some.mp he).1

theorem updateNamed_getElem_ne {l : List NamedTBS} {i j : Nat}
    (f : TargetBuildState → TargetBuildState) (h : i ≠ j) :
    (updateNamed l i f)[j]? = l[j]? := by
  unfold updateNamed
  cases hl : l[i]? with
  | none => rfl
  | some e => exact List.getElem?_set_ne h

/-- After the push branch of `prepare_file_compilation_g`, the first
entry found under the target's name holds the appended job and
`needs_linking = true`. -/
theorem find_after_push (states : List NamedTBS) (nm : String) (p : CompileParameters) :
    ∃ e, (updateNamed (get_target_build_state states nm).1 (get_target_build_state states nm).2
        (fun st => pushCompileJob st p)).find? (fun x => x.target_name == nm) = some e ∧
      e.state.needs_linking = true ∧ p ∈ e.state.compile_jobs := by
  cases hg : gtbsGo nm states 0 with
  | some i =>
    obtain ⟨hlt, ⟨e, he, hen⟩, hfirst⟩ := gtbsGo_zero_spec nm states i hg
    refine ⟨⟨e.target_name, pushCompileJob e.state p⟩, ?_, rfl, by simp [pushCompileJob]⟩
    simp only [get_target_build_state, hg]
    have hup := updateNamed_getElem_self (fun st => pushCompileJob st p) he
    exact find?_first nm hup hen (fun m hm x hx =>
      hfirst m hm x (by rw [← updateNamed_getElem_ne (l := states)
        (fun st => pushCompileJob st p) (by omega : i ≠ m)]; exact hx))
  | none =>
    refine ⟨⟨nm, pushCompileJob initialTBS p⟩, ?_, rfl, by simp [pushCompileJob, initialTBS]⟩
    simp only [get_target_build_state, hg]
    have hlen : (states ++ [(⟨nm, initialTBS⟩ : NamedTBS)])[states.length]? =
        some ⟨nm, initialTBS⟩ := List.getElem?_concat_length states _
    have hup := updateNamed_getElem_self (fun st => pushCompileJob st p) hlen
    refine find?_first nm hup rfl ?_
    intro m hm x hx
    rw [updateNamed_getElem_ne (fun st => pushCompileJob st p)
      (show states.length ≠ m by omega)] at hx
    rw [List.getElem?_append_left hm] at hx
    exact gtbsGo_none nm states 0 hg x (List.getElem?_mem hx)

/-- Claim C10 (confirmed): within one build invocation, build state is
keyed solely by the target name — lookups for two `Target` values with
equal names return the same vector and index, at most one
`TargetBuildState` exists per distinct name (name uniqueness is
preserved by every lookup), the entry at the returned index carries
exactly the looked-up name, and a compile job pushed for one target is
visible through the other target's name (silent merging), with the
shared `needs_linking` flag set. -/
theorem nobs_c10 :
    (∀ (states : List NamedTBS) (t1 t2 : Target), t1.name = t2.name →
        get_target_build_state states t1.name = get_target_build_state states t2.name)
  ∧ (∀ (states : List NamedTBS) (name : String),
        (states.map (·.target_name)).Nodup →
        (((get_target_build_state states name).1).map (·.target_name)).Nodup)
  ∧ (∀ (states : List NamedTBS) (name : String),
        ∃ e, ((get_target_build_state states name).1)[(get_target_build_state states name).2]? =
            some e ∧ e.target_name = name)
  ∧ (∀ fs ts ctx flags ub source (states : List NamedTBS) (t1 t2 : Target)
        (states' : List NamedTBS), t1.name = t2.name →
        storedOf fs ctx ub source ≠ some (fingerprintOf ts ctx flags ub source) →
        prepare_file_compilation_g fs ts ctx flags ub source states t1 = .ok states' →
        ∃ e, states'.find? (fun x => x.target_name == t2.name) = some e ∧
          e.state.needs_linking = true ∧
          fingerprintOf ts ctx flags ub source ∈ e.state.compile_jobs) := by
  refine ⟨?_, ?_, ?_, ?_⟩
  · intro states t1 t2 h
    rw [h]
  · intro states name hnd
    unfold get_target_build_state
    cases hg : gtbsGo name states 0 with
    | some i => exact hnd
    | none =>
      rw [List.map_append, List.nodup_append]
      refine ⟨hnd, List.nodup_singleton _, ?_⟩
      intro a ha hb
      rw [show (List.map (·.target_name) [(⟨name, initialTBS⟩ : NamedTBS)]) = [name]
        from rfl, List.mem_singleton] at hb
      obtain ⟨e, hel, hee⟩ := List.mem_map.mp ha
      exact gtbsGo_none name states 0 hg e hel (by rw [hee, hb])
  · intro states name
    unfold get_target_build_state
    cases hg : gtbsGo name states 0 with
    | some i =>
      obtain ⟨_, ⟨e, he, hen⟩, _⟩ := gtbsGo_zero_spec name states i hg
      exact ⟨e, he, hen⟩
    | none =>
      exact ⟨⟨name, initialTBS⟩, List.getElem?_concat_length states _, rfl⟩
  · intro fs ts ctx flags ub source states t1 t2 states' hname hstored hprep
    rw [← hname]
    unfold prepare_file_compilation_g at hprep
    cases hfs : fs (metafileName ctx ub source) with
    | none =>
      rw [hfs] at hprep
      have e := Except.ok.inj hprep
      rw [← e]
      exact find_after_push states t1.name (fingerprintOf ts ctx flags ub source)
    | some c =>
      simp only [hfs] at hprep
      cases hr : read_compile_parameters_from_file c with
      | error er => simp [hr] at hprep
      | ok oldp =>
        simp only [hr] at hprep
        by_cases heq : oldp = fingerprintOf ts ctx flags ub source
        · exfalso
          apply hstored
          rw [← heq]
          simp [storedOf, hfs, hr, Except.toOption]
        · have hb : ¬(cpEq oldp (fingerprintOf ts ctx flags ub source) = true) :=
            fun hb => heq ((cpEq_iff _ _).mp hb)
          rw [if_neg hb] at hprep
          have e := Except.ok.inj hprep
          rw [← e]
          exact find_after_push states t1.name (fingerprintOf ts ctx flags ub source)

/-- Witness for claim C10 at concrete inputs: two distinct `Target`
values sharing the name `"app"`. -/
theorem nobs_c10_witness :
    get_target_build_state [] (Target.mk "app" ["a.cpp"] []).name =
      get_target_build_state [] (Target.mk "app" ["b.cpp"] ["-g"]).name
  ∧ (((get_target_build_state [] "app").1).map (·.target_name)).Nodup
  ∧ (∃ e, ((get_target_build_state [] "app").1)[(get_target_build_state [] "app").2]? =
      some e ∧ e.target_name = "app")
  ∧ (∃ e, (updateNamed (get_target_build_state [] "app").1 (get_target_build_state [] "app").2
        (fun st => pushCompileJob st
          (fingerprintOf (fun _ => 9) ⟨"bdir", "proj"⟩ "-Wall" true "a.cpp"))).find?
          (fun x => x.target_name == (Target.mk "app" ["b.cpp"] ["-g"]).name) = some e ∧
      e.state.needs_linking = true ∧
      fingerprintOf (fun _ => 9) ⟨"bdir", "proj"⟩ "-Wall" true "a.cpp" ∈ e.state.compile_jobs) :=
  ⟨nobs_c10.1 [] ⟨"app", ["a.cpp"], []⟩ ⟨"app", ["b.cpp"], ["-g"]⟩ rfl,
   nobs_c10.2.1 [] "app" List.nodup_nil,
   nobs_c10.2.2.1 [] "app",
   nobs_c10.2.2.2 (fun _ => none) (fun _ => 9) ⟨"bdir", "proj"⟩ "-Wall" true "a.cpp" []
     ⟨"app", ["a.cpp"], []⟩ ⟨"app", ["b.cpp"], ["-g"]⟩ _ rfl (by decide) rfl⟩

end Nobs
